import Mathlib

/-!
Verification of the brick-translator i18n component: a shallow embedding of
`src/brick_translator/i18n_generator.py` and `src/brick_translator/config_manager.py`,
together with proofs about flatten/rebuild, the per-language translation loop,
the translation cache and the provider listing.
-/

set_option maxHeartbeats 1000000

/-- A JSON-like document: ordered string-keyed mappings, ordered sequences and
scalar leaves (string, number, boolean, null), as handled by the Python code. -/
inductive Json where
  | str (s : String)
  | num (n : Int)
  | bool (b : Bool)
  | null
  | arr (xs : List Json)
  | obj (kvs : List (String × Json))

mutual

/-- Boolean structural equality on documents. -/
def Json.beq : Json → Json → Bool
  | .str a, .str b => a == b
  | .num a, .num b => a == b
  | .bool a, .bool b => a == b
  | .null, .null => true
  | .arr xs, .arr ys => Json.beqList xs ys
  | .obj a, .obj b => Json.beqFields a b
  | _, _ => false

/-- Boolean equality on item lists. -/
def Json.beqList : List Json → List Json → Bool
  | [], [] => true
  | x :: xs, y :: ys => Json.beq x y && Json.beqList xs ys
  | _, _ => false

/-- Boolean equality on field lists. -/
def Json.beqFields : List (String × Json) → List (String × Json) → Bool
  | [], [] => true
  | (k, v) :: xs, (l, w) :: ys => k == l && Json.beq v w && Json.beqFields xs ys
  | _, _ => false

end



/-- Lookup in a Python-dict modelled as an ordered association list
(first matching key wins; keys are unique in dicts built by `dinsert`). -/
def dlookup {α : Type} : List (String × α) → String → Option α
  | [], _ => none
  | (k, v) :: rest, q => if k = q then some v else dlookup rest q

/-- Python `d[k] = v`: replace in place if the key exists (keeping its position),
otherwise append at the end, exactly like CPython dict insertion order. -/
def dinsert {α : Type} (m : List (String × α)) (k : String) (v : α) : List (String × α) :=
  if (dlookup m k).isSome then
    m.map (fun p => if p.1 = k then (k, v) else p)
  else
    m ++ [(k, v)]

/-- Python `d.update(d2)`: insert every entry of `d2` into `d` in order. -/
def dupdate {α : Type} (m m2 : List (String × α)) : List (String × α) :=
  m2.foldl (fun acc p => dinsert acc p.1 p.2) m

/-- Characters removed by Python `str.strip()` (the ASCII whitespace set). -/
def pyIsSpace (c : Char) : Bool :=
  c = ' ' || c = '\t' || c = '\n' || c = '\r' || c = '\x0b' || c = '\x0c'

/-- Python `obj.strip()` truthiness: the string has some non-whitespace character. -/
def pyNonBlank (s : String) : Bool :=
  s.data.any (fun c => !(pyIsSpace c))

/-- Path extension for a mapping key: `f"{path}.{key}" if path else key`. -/
def joinKey (path key : String) : String :=
  if path = "" then key else path ++ "." ++ key

/-- Path extension for a sequence index: `f"{path}[{i}]"`. -/
def joinIndex (path : String) (i : Nat) : String :=
  path ++ "[" ++ Nat.repr i ++ "]"

mutual

/-- `I18nGenerator._extract_translatable_values`: recursively extract every
non-blank string value, keyed by structural path, into a dict built by
`translatable.update(...)` / `translatable[path] = obj`. -/
def extractTranslatableValues : Json → String → List (String × String)
  | .obj kvs, path => extractFields kvs path []
  | .arr xs, path => extractItems xs path 0 []
  | .str s, path => if pyNonBlank s then [(path, s)] else []
  | .num _, _ => []
  | .bool _, _ => []
  | .null, _ => []

/-- The dict-valued fold over a mapping's fields from
`_extract_translatable_values` (the `isinstance(obj, dict)` branch). -/
def extractFields : List (String × Json) → String → List (String × String) → List (String × String)
  | [], _, acc => acc
  | (k, v) :: rest, path, acc =>
      extractFields rest path (dupdate acc (extractTranslatableValues v (joinKey path k)))

/-- The dict-valued fold over a sequence's items from
`_extract_translatable_values` (the `isinstance(obj, list)` branch). -/
def extractItems : List Json → String → Nat → List (String × String) → List (String × String)
  | [], _, _, acc => acc
  | x :: rest, path, i, acc =>
      extractItems rest path (i + 1) (dupdate acc (extractTranslatableValues x (joinIndex path i)))

end

mutual

/-- The sequence of `(path, value)` recordings made by one traversal of
`_extract_translatable_values`, in traversal order and before the enclosing
dict updates collapse duplicate paths. -/
def extractPairs : Json → String → List (String × String)
  | .obj kvs, path => pairsFields kvs path
  | .arr xs, path => pairsItems xs path 0
  | .str s, path => if pyNonBlank s then [(path, s)] else []
  | .num _, _ => []
  | .bool _, _ => []
  | .null, _ => []

/-- Recordings contributed by a mapping's fields, concatenated in field order. -/
def pairsFields : List (String × Json) → String → List (String × String)
  | [], _ => []
  | (k, v) :: rest, path => extractPairs v (joinKey path k) ++ pairsFields rest path

/-- Recordings contributed by a sequence's items, concatenated in index order. -/
def pairsItems : List Json → String → Nat → List (String × String)
  | [], _, _ => []
  | x :: rest, path, i => extractPairs x (joinIndex path i) ++ pairsItems rest path (i + 1)

end

mutual

/-- Every string leaf of the document with its computed path, blank or not
(the traversal of `_extract_translatable_values` without the non-blank filter). -/
def strLeafPairs : Json → String → List (String × String)
  | .obj kvs, path => strLeafFields kvs path
  | .arr xs, path => strLeafItems xs path 0
  | .str s, path => [(path, s)]
  | .num _, _ => []
  | .bool _, _ => []
  | .null, _ => []

/-- String leaves contributed by a mapping's fields. -/
def strLeafFields : List (String × Json) → String → List (String × String)
  | [], _ => []
  | (k, v) :: rest, path => strLeafPairs v (joinKey path k) ++ strLeafFields rest path

/-- String leaves contributed by a sequence's items. -/
def strLeafItems : List Json → String → Nat → List (String × String)
  | [], _, _ => []
  | x :: rest, path, i => strLeafPairs x (joinIndex path i) ++ strLeafItems rest path (i + 1)

end

mutual

/-- `I18nGenerator._build_translated_structure`: rebuild the tree, replacing a
string leaf by `translations[path]` when its path is a key of `translations`,
and passing everything else through unchanged. -/
def buildTranslatedStructure : Json → List (String × String) → String → Json
  | .obj kvs, tr, path => .obj (buildFields kvs tr path)
  | .arr xs, tr, path => .arr (buildItems xs tr path 0)
  | .str s, tr, path =>
      match dlookup tr path with
      | some t => .str t
      | none => .str s
  | .num n, _, _ => .num n
  | .bool b, _, _ => .bool b
  | .null, _, _ => .null

/-- Rebuild of a mapping's fields (`result[key] = ...` in insertion order). -/
def buildFields : List (String × Json) → List (String × String) → String → List (String × Json)
  | [], _, _ => []
  | (k, v) :: rest, tr, path =>
      (k, buildTranslatedStructure v tr (joinKey path k)) :: buildFields rest tr path

/-- Rebuild of a sequence's items (`result.append(...)` in index order). -/
def buildItems : List Json → List (String × String) → String → Nat → List Json
  | [], _, _, _ => []
  | x :: rest, tr, path, i =>
      buildTranslatedStructure x tr (joinIndex path i) :: buildItems rest tr path (i + 1)

end

/-- Boolean key-uniqueness check for a list of strings. -/
def nodupB : List String → Bool
  | [] => true
  | x :: xs => !(xs.contains x) && nodupB xs

/-- A key is harmless for path construction if it is non-empty and contains
neither the mapping separator character nor the index-opening bracket. -/
def goodKeyB (k : String) : Bool :=
  !(k = "") && k.data.all (fun c => !(c = '.') && !(c = '['))

mutual

/-- A document whose mapping keys are pairwise distinct at each level (as JSON
object keys always are) and harmless for path construction. -/
def goodDoc : Json → Bool
  | .obj kvs => nodupB (kvs.map Prod.fst) && goodFields kvs
  | .arr xs => goodList xs
  | .str _ => true
  | .num _ => true
  | .bool _ => true
  | .null => true

/-- Field-wise key condition for `goodDoc`. -/
def goodFields : List (String × Json) → Bool
  | [] => true
  | (k, v) :: rest => goodKeyB k && goodDoc v && goodFields rest

/-- Item-wise condition for `goodDoc`. -/
def goodList : List Json → Bool
  | [] => true
  | x :: rest => goodDoc x && goodList rest

end

/-- In-memory state of the per-language loop of `I18nGenerator.generate_i18n`
(lines 150-171): the translations dict, the translation cache dict, and the
list of texts on which `self.translator.translate` has been invoked so far. -/
structure LangState where
  translations : List (String × String)
  cache : List (String × String)
  callLog : List String

/-- One iteration of the loop body `for path, text in translatable_values.items()`:
use the cache when enabled and hit; otherwise invoke the backend, recording the
translation on success (and caching it when enabled) or falling back to the
original text when the backend raises (`backend text = none`). -/
def translateStep (backend : String → Option String) (useCache : Bool)
    (st : LangState) (path text : String) : LangState :=
  match (if useCache then dlookup st.cache text else none) with
  | some cached => ⟨dinsert st.translations path cached, st.cache, st.callLog⟩
  | none =>
      match backend text with
      | some t =>
          ⟨dinsert st.translations path t,
           if useCache then dinsert st.cache text t else st.cache,
           st.callLog ++ [text]⟩
      | none =>
          ⟨dinsert st.translations path text, st.cache, st.callLog ++ [text]⟩

/-- The whole per-language translation loop over the translatable pairs. -/
def runLanguage (backend : String → Option String) (useCache : Bool) :
    List (String × String) → LangState → LangState
  | [], st => st
  | (path, text) :: rest, st =>
      runLanguage backend useCache rest (translateStep backend useCache st path text)

/-- Result of one `generate_i18n` invocation: the rebuilt document per language,
the total number of backend invocations, and the returned boolean. -/
structure RunResult where
  outputs : List (String × Json)
  totalCalls : Nat
  success : Bool

/-- `I18nGenerator._load_translation_cache`: a failed or missing cache file read
(`none`) degrades to the empty cache thanks to the `try/except` around it. -/
def loadTranslationCache (readResult : Option (List (String × String))) :
    List (String × String) :=
  match readResult with
  | some cache => cache
  | none => []

/-- `I18nGenerator.generate_i18n` on an already-loaded document: extract the
translatable values once, then per language load the cache (when enabled),
run the translation loop and rebuild the document.  File writes and the
`_save_translation_cache` call have no effect on the returned data (the save
swallows its own exceptions), so they do not appear in the state.
`backend text lang` models `self.translator.translate(text, target_lang=lang)`,
`none` meaning the call raised. -/
def generateI18n (backend : String → String → Option String) (doc : Json)
    (langs : List String) (useCache : Bool)
    (cacheReads : String → Option (List (String × String))) : RunResult :=
  let translatable := extractTranslatableValues doc ""
  if translatable = [] then ⟨[], 0, true⟩
  else
    let runs := langs.map (fun lang =>
      let cache0 := if useCache then loadTranslationCache (cacheReads lang) else []
      let st := runLanguage (fun t => backend t lang) useCache translatable ⟨[], cache0, []⟩
      (lang, buildTranslatedStructure doc st.translations "", st.callLog.length))
    ⟨runs.map (fun r => (r.1, r.2.1)), (runs.map (fun r => r.2.2)).sum, true⟩

/-- `config_manager.generate_default_config`: the provider sections of the
config written by `init`, with their placeholder credentials (the
`default_provider` entry is irrelevant to provider availability). -/
def generateDefaultConfig : List (String × List (String × String)) :=
  [("qwen", [("api_key", "your_dashscope_api_key_here"),
             ("base_url", "https://dashscope.aliyuncs.com/compatible-mode/v1"),
             ("model", "qwen3-max")]),
   ("claude", [("api_key", "your_anthropic_api_key_here")]),
   ("gemini", [("api_key", "your_google_api_key_here")]),
   ("openai", [("api_key", "your_openai_api_key_here"),
               ("base_url", "https://api.openai.com/v1")])]

/-- `config_manager.get_available_providers` on a successfully validated config:
keep a provider when its section exists, its `api_key` is truthy (non-empty) and
differs from the literal `f"your_{provider}_api_key_here"`. -/
def getAvailableProviders (config : List (String × List (String × String))) :
    List String :=
  ["qwen", "claude", "gemini", "openai"].filter (fun p =>
    match dlookup config p with
    | some fields =>
        match dlookup fields "api_key" with
        | some k => !(k == "") && !(k == "your_" ++ p ++ "_api_key_here")
        | none => false
    | none => false)

/-- The scenario document of the spec:
`{"title": "Hello World", "meta": {"count": 3}, "tags": ["a",""]}`. -/
def exampleDoc : Json :=
  .obj [("title", .str "Hello World"),
        ("meta", .obj [("count", .num 3)]),
        ("tags", .arr [.str "a", .str ""])]

/-- A document on which path construction collides: the top-level key `"a.b"`
and the nested key chain `"a"` then `"b"` both render to the path `"a.b"`. -/
def collidingDoc : Json :=
  .obj [("a.b", .str "x"), ("a", .obj [("b", .str "y")])]

mutual

/-- Erase every string leaf value, keeping the whole structure: mapping keys in
order, sequence lengths, and all non-string leaves. -/
def stripStrings : Json → Json
  | .obj kvs => .obj (stripFields kvs)
  | .arr xs => .arr (stripItems xs)
  | .str _ => .str ""
  | .num n => .num n
  | .bool b => .bool b
  | .null => .null

/-- Structure erasure on a mapping's fields. -/
def stripFields : List (String × Json) → List (String × Json)
  | [] => []
  | (k, v) :: rest => (k, stripStrings v) :: stripFields rest

/-- Structure erasure on a sequence's items. -/
def stripItems : List Json → List Json
  | [] => []
  | x :: rest => stripStrings x :: stripItems rest

end

/-- Value of a digit string under the left fold `10 * acc + digit`. -/
def digitsVal (l : List Char) : Nat :=
  l.foldl (fun a c => 10 * a + (c.toNat - 48)) 0

/-- A valid continuation of a rendered path: empty, or starting with a mapping
separator or an index bracket. -/
def extTail (e : List Char) : Prop :=
  e = [] ∨ (∃ t, e = '.' :: t) ∨ (∃ t, e = '[' :: t)

/-- A document with one distinct non-empty string occurring at two paths. -/
def dupStringDoc : Json :=
  .obj [("a", .str "s"), ("b", .str "s")]

/-- A two-leaf document for the single-failure scenario. -/
def twoLeafDoc : Json :=
  .obj [("a", .str "hello"), ("b", .str "world")]

/-- A backend that raises on `"hello"` and succeeds on everything else. -/
def failingBackend : String → Option String :=
  fun t => if t = "hello" then none else some (t ++ "!")

/-- A backend that always succeeds. -/
def okBackend : String → Option String :=
  fun t => some (t ++ "-zh")

/-- A backend that always raises. -/
def alwaysFailBackend : String → Option String :=
  fun _ => none

/-- A two-language backend that always succeeds. -/
def twoLangBackend : String → String → Option String :=
  fun t l => some (t ++ ":" ++ l)

mutual

theorem Json.beq_iff : ∀ a b : Json, Json.beq a b = true ↔ a = b
  | .str a, b => by
      cases b <;> simp [Json.beq]
  | .num a, b => by
      cases b <;> simp [Json.beq]
  | .bool a, b => by
      cases b <;> simp [Json.beq]
  | .null, b => by
      cases b <;> simp [Json.beq]
  | .arr xs, b => by
      cases b <;> simp [Json.beq, Json.beqList_iff xs]
  | .obj kvs, b => by
      cases b <;> simp [Json.beq, Json.beqFields_iff kvs]

theorem Json.beqList_iff : ∀ xs ys : List Json, Json.beqList xs ys = true ↔ xs = ys
  | [], ys => by cases ys <;> simp [Json.beqList]
  | x :: xs, ys => by
      cases ys with
      | nil => simp [Json.beqList]
      | cons y ys => simp [Json.beqList, Json.beq_iff x y, Json.beqList_iff xs ys]

theorem Json.beqFields_iff : ∀ xs ys : List (String × Json), Json.beqFields xs ys = true ↔ xs = ys
  | [], ys => by cases ys <;> simp [Json.beqFields]
  | (k, v) :: xs, ys => by
      cases ys with
      | nil => simp [Json.beqFields]
      | cons y ys =>
          cases y with
          | mk l w =>
              simp [Json.beqFields, Json.beq_iff v w, Json.beqFields_iff xs ys, and_assoc]

end

instance : DecidableEq Json := fun a b =>
  decidable_of_iff (Json.beq a b = true) (Json.beq_iff a b)

/-! ### Dictionary lemmas -/

@[simp] theorem dupdate_nil {α : Type} (a : List (String × α)) : dupdate a [] = a := rfl

theorem dupdate_cons {α : Type} (a : List (String × α)) (k : String) (v : α) (l : List (String × α)) :
    dupdate a ((k, v) :: l) = dupdate (dinsert a k v) l := rfl

theorem dlookup_append {α : Type} (a b : List (String × α)) (q : String) :
    dlookup (a ++ b) q = match dlookup a q with
      | some v => some v
      | none => dlookup b q := by
  induction a with
  | nil => simp [dlookup]
  | cons p rest ih =>
      obtain ⟨k, v⟩ := p
      by_cases h : k = q <;> simp [dlookup, h, ih]

theorem dlookup_eq_none_iff {α : Type} (m : List (String × α)) (q : String) :
    dlookup m q = none ↔ q ∉ m.map Prod.fst := by
  induction m with
  | nil => simp [dlookup]
  | cons p rest ih =>
      obtain ⟨k, v⟩ := p
      by_cases h : k = q
      · subst h
        simp [dlookup]
      · have h2 : ¬(q = k) := fun he => h he.symm
        simp [dlookup, h, h2, ih]

theorem mem_of_dlookup_eq_some {α : Type} {m : List (String × α)} {q : String} {v : α}
    (h : dlookup m q = some v) : (q, v) ∈ m := by
  induction m with
  | nil => simp [dlookup] at h
  | cons p rest ih =>
      obtain ⟨k, w⟩ := p
      by_cases hk : k = q
      · subst hk
        simp [dlookup] at h
        simp [h]
      · simp only [dlookup, hk, if_false] at h
        exact List.mem_cons_of_mem _ (ih h)

theorem dlookup_of_mem_nodup {α : Type} {m : List (String × α)} {q : String} {v : α}
    (hnd : (m.map Prod.fst).Nodup) (hm : (q, v) ∈ m) : dlookup m q = some v := by
  induction m with
  | nil => simp at hm
  | cons p rest ih =>
      obtain ⟨k, w⟩ := p
      rw [List.map_cons, List.nodup_cons] at hnd
      rcases List.mem_cons.mp hm with h | h
      · injection h with h1 h2
        subst h1; subst h2
        simp [dlookup]
      · have hq : q ∈ rest.map Prod.fst := List.mem_map.mpr ⟨(q, v), h, rfl⟩
        have hk : k ≠ q := fun he => hnd.1 (by rw [he]; exact hq)
        simp only [dlookup, hk, if_false]
        exact ih hnd.2 h

theorem dlookup_map_self {α : Type} (m : List (String × α)) (k : String) (v : α)
    (h : (dlookup m k).isSome) :
    dlookup (m.map (fun p => if p.1 = k then (k, v) else p)) k = some v := by
  induction m with
  | nil => simp [dlookup] at h
  | cons p rest ih =>
      obtain ⟨k0, v0⟩ := p
      rw [List.map_cons]
      by_cases hk : (k0, v0).1 = k
      · rw [if_pos hk]
        simp [dlookup]
      · rw [if_neg hk]
        simp only at hk
        simp only [dlookup, hk, if_false] at h
        simp only [dlookup, hk, if_false]
        exact ih h

theorem dlookup_map_ne {α : Type} (m : List (String × α)) (k q : String) (v : α)
    (hq : q ≠ k) :
    dlookup (m.map (fun p => if p.1 = k then (k, v) else p)) q = dlookup m q := by
  induction m with
  | nil => simp [dlookup]
  | cons p rest ih =>
      obtain ⟨k0, v0⟩ := p
      rw [List.map_cons]
      by_cases hk : (k0, v0).1 = k
      · rw [if_pos hk]
        simp only at hk
        have h1 : ¬(k = q) := fun he => hq he.symm
        have h2 : ¬(k0 = q) := fun he => hq (he.symm.trans hk)
        simp only [dlookup, h1, h2, if_false]
        exact ih
      · rw [if_neg hk]
        by_cases hq0 : k0 = q
        · simp [dlookup, hq0]
        · simp only [dlookup, hq0, if_false]
          exact ih

theorem dlookup_not_isSome_eq_none {α : Type} {o : Option α}
    (h : ¬o.isSome) : o = none := by
  cases o with
  | none => rfl
  | some w => simp at h

theorem dlookup_dinsert_self {α : Type} (m : List (String × α)) (k : String) (v : α) :
    dlookup (dinsert m k v) k = some v := by
  unfold dinsert
  by_cases h : (dlookup m k).isSome
  · rw [if_pos h]
    exact dlookup_map_self m k v h
  · rw [if_neg h]
    rw [dlookup_append, dlookup_not_isSome_eq_none h]
    simp [dlookup]

theorem dlookup_dinsert_ne {α : Type} (m : List (String × α)) (k q : String) (v : α)
    (hq : q ≠ k) : dlookup (dinsert m k v) q = dlookup m q := by
  unfold dinsert
  by_cases h : (dlookup m k).isSome
  · rw [if_pos h]
    exact dlookup_map_ne m k q v hq
  · rw [if_neg h]
    rw [dlookup_append]
    cases he : dlookup m q with
    | some w => rfl
    | none =>
        have hkq : ¬(k = q) := fun he2 => hq he2.symm
        simp [dlookup, hkq]

theorem mem_dinsert {α : Type} {m : List (String × α)} {k q : String} {v w : α}
    (h : (q, w) ∈ dinsert m k v) : (q, w) ∈ m ∨ (q = k ∧ w = v) := by
  unfold dinsert at h
  by_cases hs : (dlookup m k).isSome
  · rw [if_pos hs] at h
    rcases List.mem_map.mp h with ⟨p, hp, he⟩
    by_cases hpk : p.1 = k
    · rw [if_pos hpk] at he
      injection he with h1 h2
      exact Or.inr ⟨h1.symm, h2.symm⟩
    · rw [if_neg hpk] at he
      exact Or.inl (he ▸ hp)
  · rw [if_neg hs] at h
    rcases List.mem_append.mp h with h | h
    · exact Or.inl h
    · have he : (q, w) = (k, v) := List.mem_singleton.mp h
      injection he with h1 h2
      exact Or.inr ⟨h1, h2⟩

theorem keys_dinsert_nodup {α : Type} {m : List (String × α)} (k : String) (v : α)
    (h : (m.map Prod.fst).Nodup) : ((dinsert m k v).map Prod.fst).Nodup := by
  unfold dinsert
  by_cases hs : (dlookup m k).isSome
  · rw [if_pos hs]
    have heq : ((m.map (fun p => if p.1 = k then (k, v) else p)).map Prod.fst)
        = m.map Prod.fst := by
      rw [List.map_map]
      apply List.map_congr_left
      intro p _
      show (if p.1 = k then (k, v) else p).1 = p.1
      by_cases hp : p.1 = k
      · rw [if_pos hp]
        exact hp.symm
      · rw [if_neg hp]
    rw [heq]
    exact h
  · rw [if_neg hs, List.map_append, List.nodup_append]
    refine ⟨h, by simp, ?_⟩
    intro q hq
    have hk : k ∉ m.map Prod.fst :=
      (dlookup_eq_none_iff m k).mp (dlookup_not_isSome_eq_none hs)
    simp only [List.map_cons, List.map_nil, List.mem_singleton]
    intro he
    exact hk (he ▸ hq)

theorem mem_dupdate {α : Type} {l : List (String × α)} :
    ∀ {a : List (String × α)} {q : String} {w : α},
      (q, w) ∈ dupdate a l → (q, w) ∈ a ∨ (q, w) ∈ l := by
  induction l with
  | nil => intro a q w h; exact Or.inl h
  | cons p rest ih =>
      intro a q w h
      obtain ⟨k, v⟩ := p
      rw [dupdate_cons] at h
      rcases ih h with h2 | h2
      · rcases mem_dinsert h2 with h3 | h3
        · exact Or.inl h3
        · exact Or.inr (by simp [h3.1, h3.2])
      · exact Or.inr (List.mem_cons_of_mem _ h2)

theorem keys_dupdate_nodup {α : Type} {l : List (String × α)} :
    ∀ {a : List (String × α)}, (a.map Prod.fst).Nodup →
      ((dupdate a l).map Prod.fst).Nodup := by
  induction l with
  | nil => intro a h; exact h
  | cons p rest ih =>
      intro a h
      obtain ⟨k, v⟩ := p
      rw [dupdate_cons]
      exact ih (keys_dinsert_nodup k v h)

theorem dupdate_disjoint {α : Type} {l : List (String × α)} :
    ∀ {a : List (String × α)},
      (l.map Prod.fst).Nodup → (∀ q ∈ l.map Prod.fst, dlookup a q = none) →
      dupdate a l = a ++ l := by
  induction l with
  | nil => intro a _ _; simp
  | cons p rest ih =>
      intro a hnd hdis
      obtain ⟨k, v⟩ := p
      rw [List.map_cons, List.nodup_cons] at hnd
      rw [dupdate_cons]
      have hk : dlookup a k = none := hdis k (by simp)
      have hks : ¬(dlookup a k).isSome := by rw [hk]; simp
      have hins : dinsert a k v = a ++ [(k, v)] := by
        unfold dinsert
        rw [if_neg hks]
      have hdis2 : ∀ q ∈ rest.map Prod.fst, dlookup (a ++ [(k, v)]) q = none := by
        intro q hq
        have hqk : ¬(k = q) := fun he => hnd.1 (by rw [he]; exact hq)
        rw [dlookup_append, hdis q (by rw [List.map_cons]; exact List.mem_cons_of_mem _ hq)]
        simp [dlookup, hqk]
      rw [hins, ih hnd.2 hdis2, List.append_assoc]
      rfl

/-! ### Extraction lemmas -/

theorem keys_extractFields_nodup :
    ∀ (kvs : List (String × Json)) (p : String) (acc : List (String × String)),
      (acc.map Prod.fst).Nodup → ((extractFields kvs p acc).map Prod.fst).Nodup
  | [], _, _, h => h
  | (k, v) :: rest, p, acc, h =>
      keys_extractFields_nodup rest p _ (keys_dupdate_nodup h)

theorem keys_extractItems_nodup :
    ∀ (xs : List Json) (p : String) (i : Nat) (acc : List (String × String)),
      (acc.map Prod.fst).Nodup → ((extractItems xs p i acc).map Prod.fst).Nodup
  | [], _, _, _, h => h
  | x :: rest, p, i, acc, h =>
      keys_extractItems_nodup rest p (i + 1) _ (keys_dupdate_nodup h)

/-- The keys of the dict produced by `_extract_translatable_values` are always
pairwise distinct: it is a Python dict. -/
theorem keys_extract_nodup (v : Json) (p : String) :
    ((extractTranslatableValues v p).map Prod.fst).Nodup := by
  cases v with
  | obj kvs => exact keys_extractFields_nodup kvs p [] (by simp)
  | arr xs => exact keys_extractItems_nodup xs p 0 [] (by simp)
  | str s =>
      by_cases h : pyNonBlank s <;> simp [extractTranslatableValues, h]
  | num n => simp [extractTranslatableValues]
  | bool b => simp [extractTranslatableValues]
  | null => simp [extractTranslatableValues]

mutual

/-- Every entry of the extraction dict was recorded by the traversal. -/
theorem mem_extract_sub :
    ∀ (v : Json) (p : String) (q s : String),
      (q, s) ∈ extractTranslatableValues v p → (q, s) ∈ extractPairs v p
  | .obj kvs, p, q, s, h => by
      rcases mem_extractFields_sub kvs p [] q s h with h2 | h2
      · simp at h2
      · exact h2
  | .arr xs, p, q, s, h => by
      rcases mem_extractItems_sub xs p 0 [] q s h with h2 | h2
      · simp at h2
      · exact h2
  | .str t, p, q, s, h => by
      by_cases hb : pyNonBlank t <;>
        simp_all [extractTranslatableValues, extractPairs, hb]
  | .num n, p, q, s, h => by simp [extractTranslatableValues] at h
  | .bool b, p, q, s, h => by simp [extractTranslatableValues] at h
  | .null, p, q, s, h => by simp [extractTranslatableValues] at h

theorem mem_extractFields_sub :
    ∀ (kvs : List (String × Json)) (p : String) (acc : List (String × String)) (q s : String),
      (q, s) ∈ extractFields kvs p acc → (q, s) ∈ acc ∨ (q, s) ∈ pairsFields kvs p
  | [], _, acc, q, s, h => Or.inl h
  | (k, v) :: rest, p, acc, q, s, h => by
      rcases mem_extractFields_sub rest p _ q s h with h2 | h2
      · rcases mem_dupdate h2 with h3 | h3
        · exact Or.inl h3
        · exact Or.inr (by
            rw [pairsFields, List.mem_append]
            exact Or.inl (mem_extract_sub v (joinKey p k) q s h3))
      · exact Or.inr (by
          rw [pairsFields, List.mem_append]
          exact Or.inr h2)

theorem mem_extractItems_sub :
    ∀ (xs : List Json) (p : String) (i : Nat) (acc : List (String × String)) (q s : String),
      (q, s) ∈ extractItems xs p i acc → (q, s) ∈ acc ∨ (q, s) ∈ pairsItems xs p i
  | [], _, _, acc, q, s, h => Or.inl h
  | x :: rest, p, i, acc, q, s, h => by
      rcases mem_extractItems_sub rest p (i + 1) _ q s h with h2 | h2
      · rcases mem_dupdate h2 with h3 | h3
        · exact Or.inl h3
        · exact Or.inr (by
            rw [pairsItems, List.mem_append]
            exact Or.inl (mem_extract_sub x (joinIndex p i) q s h3))
      · exact Or.inr (by
          rw [pairsItems, List.mem_append]
          exact Or.inr h2)

end

mutual

/-- When the recorded paths are pairwise distinct, the extraction dict is
exactly the recording sequence: no entry is ever overwritten. -/
theorem extract_eq_pairs :
    ∀ (v : Json) (p : String),
      ((extractPairs v p).map Prod.fst).Nodup →
      extractTranslatableValues v p = extractPairs v p
  | .obj kvs, p, h => by
      have := extractFields_eq kvs p [] h (by intro q _; rfl)
      simpa [extractTranslatableValues, extractPairs] using this
  | .arr xs, p, h => by
      have := extractItems_eq xs p 0 [] h (by intro q _; rfl)
      simpa [extractTranslatableValues, extractPairs] using this
  | .str t, p, h => by
      by_cases hb : pyNonBlank t <;> simp [extractTranslatableValues, extractPairs, hb]
  | .num n, p, h => rfl
  | .bool b, p, h => rfl
  | .null, p, h => rfl

theorem extractFields_eq :
    ∀ (kvs : List (String × Json)) (p : String) (acc : List (String × String)),
      ((pairsFields kvs p).map Prod.fst).Nodup →
      (∀ q ∈ (pairsFields kvs p).map Prod.fst, dlookup acc q = none) →
      extractFields kvs p acc = acc ++ pairsFields kvs p
  | [], _, acc, _, _ => by simp [extractFields, pairsFields]
  | (k, v) :: rest, p, acc, hnd, hdis => by
      rw [pairsFields, List.map_append, List.nodup_append] at hnd
      obtain ⟨hnd1, hnd2, hdisj⟩ := hnd
      have hdis1 : ∀ q ∈ (extractPairs v (joinKey p k)).map Prod.fst, dlookup acc q = none := by
        intro q hq
        exact hdis q (by rw [pairsFields, List.map_append]; exact List.mem_append_left _ hq)
      have heq1 : extractTranslatableValues v (joinKey p k) = extractPairs v (joinKey p k) :=
        extract_eq_pairs v (joinKey p k) hnd1
      have hupd : dupdate acc (extractTranslatableValues v (joinKey p k))
          = acc ++ extractPairs v (joinKey p k) := by
        rw [heq1]
        exact dupdate_disjoint hnd1 hdis1
      have hdis2 : ∀ q ∈ (pairsFields rest p).map Prod.fst,
          dlookup (acc ++ extractPairs v (joinKey p k)) q = none := by
        intro q hq
        rw [dlookup_append,
            hdis q (by rw [pairsFields, List.map_append]; exact List.mem_append_right _ hq)]
        exact (dlookup_eq_none_iff _ q).mpr (fun hq1 => hdisj hq1 hq)
      rw [extractFields, hupd, extractFields_eq rest p _ hnd2 hdis2, pairsFields,
          List.append_assoc]

theorem extractItems_eq :
    ∀ (xs : List Json) (p : String) (i : Nat) (acc : List (String × String)),
      ((pairsItems xs p i).map Prod.fst).Nodup →
      (∀ q ∈ (pairsItems xs p i).map Prod.fst, dlookup acc q = none) →
      extractItems xs p i acc = acc ++ pairsItems xs p i
  | [], _, _, acc, _, _ => by simp [extractItems, pairsItems]
  | x :: rest, p, i, acc, hnd, hdis => by
      rw [pairsItems, List.map_append, List.nodup_append] at hnd
      obtain ⟨hnd1, hnd2, hdisj⟩ := hnd
      have hdis1 : ∀ q ∈ (extractPairs x (joinIndex p i)).map Prod.fst, dlookup acc q = none := by
        intro q hq
        exact hdis q (by rw [pairsItems, List.map_append]; exact List.mem_append_left _ hq)
      have heq1 : extractTranslatableValues x (joinIndex p i) = extractPairs x (joinIndex p i) :=
        extract_eq_pairs x (joinIndex p i) hnd1
      have hupd : dupdate acc (extractTranslatableValues x (joinIndex p i))
          = acc ++ extractPairs x (joinIndex p i) := by
        rw [heq1]
        exact dupdate_disjoint hnd1 hdis1
      have hdis2 : ∀ q ∈ (pairsItems rest p (i + 1)).map Prod.fst,
          dlookup (acc ++ extractPairs x (joinIndex p i)) q = none := by
        intro q hq
        rw [dlookup_append,
            hdis q (by rw [pairsItems, List.map_append]; exact List.mem_append_right _ hq)]
        exact (dlookup_eq_none_iff _ q).mpr (fun hq1 => hdisj hq1 hq)
      rw [extractItems, hupd, extractItems_eq rest p (i + 1) _ hnd2 hdis2, pairsItems,
          List.append_assoc]

end

mutual

/-- The recordings are exactly the string leaves whose stripped value is
non-empty, in traversal order. -/
theorem pairs_eq_filter :
    ∀ (v : Json) (p : String),
      extractPairs v p = (strLeafPairs v p).filter (fun e => pyNonBlank e.2)
  | .obj kvs, p => by
      rw [extractPairs, strLeafPairs]
      exact pairsFields_eq_filter kvs p
  | .arr xs, p => by
      rw [extractPairs, strLeafPairs]
      exact pairsItems_eq_filter xs p 0
  | .str t, p => by
      by_cases hb : pyNonBlank t <;> simp [extractPairs, strLeafPairs, hb]
  | .num n, p => rfl
  | .bool b, p => rfl
  | .null, p => rfl

theorem pairsFields_eq_filter :
    ∀ (kvs : List (String × Json)) (p : String),
      pairsFields kvs p = (strLeafFields kvs p).filter (fun e => pyNonBlank e.2)
  | [], _ => rfl
  | (k, v) :: rest, p => by
      rw [pairsFields, strLeafFields, List.filter_append,
          pairs_eq_filter v (joinKey p k), pairsFields_eq_filter rest p]

theorem pairsItems_eq_filter :
    ∀ (xs : List Json) (p : String) (i : Nat),
      pairsItems xs p i = (strLeafItems xs p i).filter (fun e => pyNonBlank e.2)
  | [], _, _ => rfl
  | x :: rest, p, i => by
      rw [pairsItems, strLeafItems, List.filter_append,
          pairs_eq_filter x (joinIndex p i), pairsItems_eq_filter rest p (i + 1)]

end

theorem mem_pairsFields {q s : String} :
    ∀ {kvs : List (String × Json)} {p : String},
      (q, s) ∈ pairsFields kvs p →
      ∃ k v, (k, v) ∈ kvs ∧ (q, s) ∈ extractPairs v (joinKey p k) := by
  intro kvs
  induction kvs with
  | nil => intro p h; simp [pairsFields] at h
  | cons e rest ih =>
      intro p h
      obtain ⟨k, v⟩ := e
      rw [pairsFields, List.mem_append] at h
      rcases h with h | h
      · exact ⟨k, v, by simp, h⟩
      · rcases ih h with ⟨k2, v2, hm, hp⟩
        exact ⟨k2, v2, List.mem_cons_of_mem _ hm, hp⟩

theorem mem_pairsItems {q s : String} :
    ∀ {xs : List Json} {p : String} {i : Nat},
      (q, s) ∈ pairsItems xs p i →
      ∃ (n : Nat) (hn : n < xs.length),
        (q, s) ∈ extractPairs (xs.get ⟨n, hn⟩) (joinIndex p (i + n)) := by
  intro xs
  induction xs with
  | nil => intro p i h; simp [pairsItems] at h
  | cons x rest ih =>
      intro p i h
      rw [pairsItems, List.mem_append] at h
      rcases h with h | h
      · exact ⟨0, by simp, by simpa using h⟩
      · rcases ih h with ⟨n, hn, hp⟩
        refine ⟨n + 1, by simpa using hn, ?_⟩
        simpa [Nat.add_assoc, Nat.add_comm 1 n] using hp

/-! ### Rebuild lemmas -/

mutual

/-- `_build_translated_structure` with an empty translations dict is the identity. -/
theorem build_empty : ∀ (v : Json) (p : String), buildTranslatedStructure v [] p = v
  | .obj kvs, p => by
      rw [buildTranslatedStructure, buildFields_empty kvs p]
  | .arr xs, p => by
      rw [buildTranslatedStructure, buildItems_empty xs p 0]
  | .str t, p => rfl
  | .num n, p => rfl
  | .bool b, p => rfl
  | .null, p => rfl

theorem buildFields_empty :
    ∀ (kvs : List (String × Json)) (p : String), buildFields kvs [] p = kvs
  | [], _ => rfl
  | (k, v) :: rest, p => by
      rw [buildFields, build_empty v (joinKey p k), buildFields_empty rest p]

theorem buildItems_empty :
    ∀ (xs : List Json) (p : String) (i : Nat), buildItems xs [] p i = xs
  | [], _, _ => rfl
  | x :: rest, p, i => by
      rw [buildItems, build_empty x (joinIndex p i), buildItems_empty rest p (i + 1)]

end

mutual

/-- `_build_translated_structure` is the identity whenever the translations dict
answers every string leaf with its own value (non-blank leaves) or with a miss
(blank leaves). -/
theorem build_id :
    ∀ (v : Json) (tr : List (String × String)) (p : String),
      (∀ q s, (q, s) ∈ strLeafPairs v p →
        dlookup tr q = if pyNonBlank s then some s else none) →
      buildTranslatedStructure v tr p = v
  | .obj kvs, tr, p, h => by
      rw [buildTranslatedStructure, buildFields_id kvs tr p (by
        intro q s hm
        exact h q s (by rw [strLeafPairs]; exact hm))]
  | .arr xs, tr, p, h => by
      rw [buildTranslatedStructure, buildItems_id xs tr p 0 (by
        intro q s hm
        exact h q s (by rw [strLeafPairs]; exact hm))]
  | .str t, tr, p, h => by
      have := h p t (by rw [strLeafPairs]; simp)
      rw [buildTranslatedStructure]
      by_cases hb : pyNonBlank t
      · rw [hb, if_pos rfl] at this
        rw [this]
      · rw [if_neg (by simp [hb])] at this
        rw [this]
  | .num n, tr, p, h => rfl
  | .bool b, tr, p, h => rfl
  | .null, tr, p, h => rfl

theorem buildFields_id :
    ∀ (kvs : List (String × Json)) (tr : List (String × String)) (p : String),
      (∀ q s, (q, s) ∈ strLeafFields kvs p →
        dlookup tr q = if pyNonBlank s then some s else none) →
      buildFields kvs tr p = kvs
  | [], _, _, _ => rfl
  | (k, v) :: rest, tr, p, h => by
      rw [buildFields,
          build_id v tr (joinKey p k) (by
            intro q s hm
            exact h q s (by rw [strLeafFields, List.mem_append]; exact Or.inl hm)),
          buildFields_id rest tr p (by
            intro q s hm
            exact h q s (by rw [strLeafFields, List.mem_append]; exact Or.inr hm))]

theorem buildItems_id :
    ∀ (xs : List Json) (tr : List (String × String)) (p : String) (i : Nat),
      (∀ q s, (q, s) ∈ strLeafItems xs p i →
        dlookup tr q = if pyNonBlank s then some s else none) →
      buildItems xs tr p i = xs
  | [], _, _, _, _ => rfl
  | x :: rest, tr, p, i, h => by
      rw [buildItems,
          build_id x tr (joinIndex p i) (by
            intro q s hm
            exact h q s (by rw [strLeafItems, List.mem_append]; exact Or.inl hm)),
          buildItems_id rest tr p (i + 1) (by
            intro q s hm
            exact h q s (by rw [strLeafItems, List.mem_append]; exact Or.inr hm))]

end


mutual

/-- Rebuilding never changes the structure: whatever the translations dict,
only string leaf values can differ from the original. -/
theorem strip_build :
    ∀ (v : Json) (tr : List (String × String)) (p : String),
      stripStrings (buildTranslatedStructure v tr p) = stripStrings v
  | .obj kvs, tr, p => by
      rw [buildTranslatedStructure, stripStrings, stripStrings, strip_buildFields kvs tr p]
  | .arr xs, tr, p => by
      rw [buildTranslatedStructure, stripStrings, stripStrings, strip_buildItems xs tr p 0]
  | .str t, tr, p => by
      rw [buildTranslatedStructure]
      cases dlookup tr p <;> rfl
  | .num n, tr, p => rfl
  | .bool b, tr, p => rfl
  | .null, tr, p => rfl

theorem strip_buildFields :
    ∀ (kvs : List (String × Json)) (tr : List (String × String)) (p : String),
      stripFields (buildFields kvs tr p) = stripFields kvs
  | [], _, _ => rfl
  | (k, v) :: rest, tr, p => by
      rw [buildFields, stripFields, stripFields, strip_build v tr (joinKey p k),
          strip_buildFields rest tr p]

theorem strip_buildItems :
    ∀ (xs : List Json) (tr : List (String × String)) (p : String) (i : Nat),
      stripItems (buildItems xs tr p i) = stripItems xs
  | [], _, _, _ => rfl
  | x :: rest, tr, p, i => by
      rw [buildItems, stripItems, stripItems, strip_build x tr (joinIndex p i),
          strip_buildItems rest tr p (i + 1)]

end

/-! ### Decimal rendering lemmas (for sequence-index paths) -/

theorem digitChar_isDigit {n : Nat} (h : n < 10) : (Nat.digitChar n).isDigit = true := by
  interval_cases n <;> decide

theorem digitChar_val {n : Nat} (h : n < 10) : (Nat.digitChar n).toNat - 48 = n := by
  interval_cases n <;> decide

theorem toDigitsCore_digits :
    ∀ (fuel n : Nat) (ds : List Char), (∀ c ∈ ds, c.isDigit = true) →
      ∀ c ∈ Nat.toDigitsCore 10 fuel n ds, c.isDigit = true
  | 0, n, ds, hds => hds
  | fuel + 1, n, ds, hds => by
      rw [Nat.toDigitsCore]
      have hd : ∀ c ∈ Nat.digitChar (n % 10) :: ds, c.isDigit = true := by
        intro c hc
        rcases List.mem_cons.mp hc with h | h
        · exact h ▸ digitChar_isDigit (Nat.mod_lt n (by norm_num))
        · exact hds c h
      by_cases h : n / 10 = 0
      · simp only [h, if_true]
        exact hd
      · simp only [h, if_false]
        exact toDigitsCore_digits fuel (n / 10) _ hd

theorem toDigitsCore_acc :
    ∀ (fuel n : Nat) (ds : List Char),
      Nat.toDigitsCore 10 fuel n ds = Nat.toDigitsCore 10 fuel n [] ++ ds
  | 0, n, ds => by rw [Nat.toDigitsCore, Nat.toDigitsCore]; simp
  | fuel + 1, n, ds => by
      rw [Nat.toDigitsCore, Nat.toDigitsCore]
      by_cases h : n / 10 = 0
      · simp [h]
      · simp only [h, if_false]
        rw [toDigitsCore_acc fuel (n / 10) (Nat.digitChar (n % 10) :: ds),
            toDigitsCore_acc fuel (n / 10) [Nat.digitChar (n % 10)]]
        simp


theorem toDigitsCore_val :
    ∀ (fuel n : Nat), n < fuel → digitsVal (Nat.toDigitsCore 10 fuel n []) = n
  | 0, n, h => absurd h (Nat.not_lt_zero n)
  | fuel + 1, n, h => by
      rw [Nat.toDigitsCore]
      by_cases hz : n / 10 = 0
      · have hn : n < 10 := by
          rcases Nat.lt_or_ge n 10 with h10 | h10
          · exact h10
          · exact absurd hz (by
              have : n / 10 ≥ 1 := Nat.le_div_iff_mul_le (by norm_num) |>.mpr (by omega)
              omega)
        simp only [hz, if_true]
        unfold digitsVal
        simp only [List.foldl_cons, List.foldl_nil]
        rw [Nat.mod_eq_of_lt hn]
        have := digitChar_val hn
        omega
      · simp only [hz, if_false]
        rw [toDigitsCore_acc]
        have hlt : n / 10 < fuel := by
          have h1 : n / 10 < n := Nat.div_lt_self (by omega) (by norm_num)
          omega
        have ih := toDigitsCore_val fuel (n / 10) hlt
        unfold digitsVal at ih ⊢
        rw [List.foldl_append, ih]
        have hd := digitChar_val (Nat.mod_lt n (by norm_num) : n % 10 < 10)
        simp only [List.foldl_cons, List.foldl_nil]
        omega

theorem repr_data (n : Nat) : (Nat.repr n).data = Nat.toDigitsCore 10 (n + 1) n [] := rfl

theorem repr_data_digits (n : Nat) : ∀ c ∈ (Nat.repr n).data, c.isDigit = true := by
  rw [repr_data]
  exact toDigitsCore_digits (n + 1) n [] (by simp)

theorem repr_data_injective {m n : Nat} (h : (Nat.repr m).data = (Nat.repr n).data) : m = n := by
  rw [repr_data, repr_data] at h
  have hm := toDigitsCore_val (m + 1) m (Nat.lt_succ_self m)
  have hn := toDigitsCore_val (n + 1) n (Nat.lt_succ_self n)
  rw [h] at hm
  omega

theorem isDigit_ne_rbracket {c : Char} (h : c.isDigit = true) : ¬(c = ']') := by
  intro he
  subst he
  simp at h

/-! ### Path-shape lemmas -/

/-- Cancellation for a prefix-free token encoding: when the characters of `a`
and `b` avoid the separator class `P` and the tails start with a separator (or
are empty), equal concatenations force equal tokens. -/
theorem sepCancel {P : Char → Prop} :
    ∀ (a b e f : List Char),
      (∀ c ∈ a, ¬P c) → (∀ c ∈ b, ¬P c) →
      (e = [] ∨ ∃ c t, e = c :: t ∧ P c) → (f = [] ∨ ∃ c t, f = c :: t ∧ P c) →
      a ++ e = b ++ f → a = b
  | [], [], _, _, _, _, _, _, _ => rfl
  | [], d :: b2, e, f, _, hb, he, _, h => by
      rw [List.nil_append] at h
      rcases he with he | ⟨c, t, he, hc⟩
      · rw [he] at h
        exact absurd h.symm (List.cons_ne_nil d (b2 ++ f))
      · rw [he] at h
        injection h with h1 _
        exact absurd (h1 ▸ hc) (hb d (by simp))
  | c :: a2, [], e, f, ha, _, _, hf, h => by
      rw [List.nil_append] at h
      rcases hf with hf | ⟨d, t, hf, hd⟩
      · rw [hf] at h
        exact absurd h (List.cons_ne_nil c (a2 ++ e))
      · rw [hf] at h
        injection h with h1 _
        exact absurd (h1 ▸ hd) (ha c (by simp))
  | c :: a2, d :: b2, e, f, ha, hb, he, hf, h => by
      rw [List.cons_append, List.cons_append] at h
      injection h with h1 h2
      rw [h1, sepCancel a2 b2 e f (fun x hx => ha x (by simp [hx]))
        (fun x hx => hb x (by simp [hx])) he hf h2]

theorem data_eq_nil_iff (s : String) : s.data = [] ↔ s = "" := by
  constructor
  · intro h
    exact String.ext h
  · intro h
    rw [h]

theorem joinKey_data (p k : String) :
    (joinKey p k).data = (if p = "" then [] else p.data ++ ['.']) ++ k.data := by
  unfold joinKey
  by_cases h : p = ""
  · simp [h]
  · simp [h, String.data_append]

theorem joinIndex_data (p : String) (i : Nat) :
    (joinIndex p i).data = p.data ++ '[' :: ((Nat.repr i).data ++ [']']) := by
  unfold joinIndex
  simp [String.data_append]

theorem joinKey_ne_nil {p k : String} (hk : ¬(k = "")) : (joinKey p k).data ≠ [] := by
  rw [joinKey_data]
  intro h
  rcases List.append_eq_nil.mp h with ⟨_, h2⟩
  exact hk ((data_eq_nil_iff k).mp h2)

theorem joinIndex_ne_nil (p : String) (i : Nat) : (joinIndex p i).data ≠ [] := by
  rw [joinIndex_data]
  intro h
  rcases List.append_eq_nil.mp h with ⟨_, h2⟩
  exact List.cons_ne_nil _ _ h2


mutual

/-- Every path recorded below a node with a non-empty path prefix is that
prefix followed by a valid continuation. -/
theorem shape_v :
    ∀ (v : Json) (p : String), p.data ≠ [] → ∀ q s, (q, s) ∈ extractPairs v p →
      ∃ e, q.data = p.data ++ e ∧ extTail e
  | .obj kvs, p, hp, q, s, hm => by
      rw [extractPairs] at hm
      rcases shape_fields kvs p hp q s hm with ⟨e, he⟩
      exact ⟨'.' :: e, he, Or.inr (Or.inl ⟨e, rfl⟩)⟩
  | .arr xs, p, hp, q, s, hm => by
      rw [extractPairs] at hm
      rcases shape_items xs p 0 q s hm with ⟨e, he⟩
      exact ⟨'[' :: e, he, Or.inr (Or.inr ⟨e, rfl⟩)⟩
  | .str t, p, hp, q, s, hm => by
      rw [extractPairs] at hm
      by_cases hb : pyNonBlank t
      · rw [if_pos hb, List.mem_singleton] at hm
        injection hm with h1 _
        exact ⟨[], by rw [h1]; simp, Or.inl rfl⟩
      · rw [if_neg hb] at hm
        simp at hm
  | .num n, p, hp, q, s, hm => by rw [extractPairs] at hm; simp at hm
  | .bool b, p, hp, q, s, hm => by rw [extractPairs] at hm; simp at hm
  | .null, p, hp, q, s, hm => by rw [extractPairs] at hm; simp at hm

theorem shape_fields :
    ∀ (kvs : List (String × Json)) (p : String), p.data ≠ [] →
      ∀ q s, (q, s) ∈ pairsFields kvs p →
      ∃ e, q.data = p.data ++ ('.' :: e)
  | [], _, _, _, _, hm => by rw [pairsFields] at hm; simp at hm
  | (k, v) :: rest, p, hp, q, s, hm => by
      rw [pairsFields, List.mem_append] at hm
      rcases hm with hm | hm
      · have hjoin : (joinKey p k).data = p.data ++ '.' :: k.data := by
          rw [joinKey_data, if_neg (fun h => hp ((data_eq_nil_iff p).mpr h))]
          simp
        have hne : (joinKey p k).data ≠ [] := by
          rw [hjoin]
          intro h
          rcases List.append_eq_nil.mp h with ⟨_, h2⟩
          exact List.cons_ne_nil _ _ h2
        rcases shape_v v (joinKey p k) hne q s hm with ⟨e, he, _⟩
        refine ⟨k.data ++ e, ?_⟩
        rw [he, hjoin]
        simp
      · exact shape_fields rest p hp q s hm

theorem shape_items :
    ∀ (xs : List Json) (p : String) (i : Nat),
      ∀ q s, (q, s) ∈ pairsItems xs p i →
      ∃ e, q.data = p.data ++ ('[' :: e)
  | [], _, _, _, _, hm => by rw [pairsItems] at hm; simp at hm
  | x :: rest, p, i, q, s, hm => by
      rw [pairsItems, List.mem_append] at hm
      rcases hm with hm | hm
      · rcases shape_v x (joinIndex p i) (joinIndex_ne_nil p i) q s hm with ⟨e, he, _⟩
        refine ⟨(Nat.repr i).data ++ [']'] ++ e, ?_⟩
        rw [he, joinIndex_data]
        simp
      · exact shape_items rest p (i + 1) q s hm

end

theorem nodupB_cons {x : String} {l : List String} (h : nodupB (x :: l) = true) :
    x ∉ l ∧ nodupB l = true := by
  rw [nodupB] at h
  rcases Bool.and_eq_true_iff.mp h with ⟨h1, h2⟩
  refine ⟨?_, h2⟩
  intro hm
  simp at h1
  exact h1 hm

theorem goodKeyB_spec {k : String} (h : goodKeyB k = true) :
    ¬(k = "") ∧ ∀ c ∈ k.data, ¬(c = '.' ∨ c = '[') := by
  rw [goodKeyB] at h
  rcases Bool.and_eq_true_iff.mp h with ⟨h1, h2⟩
  refine ⟨by simpa using h1, ?_⟩
  intro c hc
  have h3 := List.all_eq_true.mp h2 c hc
  rcases Bool.and_eq_true_iff.mp h3 with ⟨hd, hb⟩
  rintro (rfl | rfl)
  · simp at hd
  · simp at hb

theorem goodFields_mem :
    ∀ {kvs : List (String × Json)} {k : String} {v : Json},
      goodFields kvs = true → (k, v) ∈ kvs → goodKeyB k = true ∧ goodDoc v = true := by
  intro kvs
  induction kvs with
  | nil => intro k v _ hm; simp at hm
  | cons e rest ih =>
      intro k v h hm
      obtain ⟨k0, v0⟩ := e
      rw [goodFields] at h
      rcases Bool.and_eq_true_iff.mp h with ⟨h1, h2⟩
      rcases Bool.and_eq_true_iff.mp h1 with ⟨hk0, hv0⟩
      rcases List.mem_cons.mp hm with hm | hm
      · injection hm with e1 e2
        subst e1; subst e2
        exact ⟨hk0, hv0⟩
      · exact ih h2 hm

theorem extTail_sep {e : List Char} (h : extTail e) :
    e = [] ∨ ∃ c t, e = c :: t ∧ (c = '.' ∨ c = '[') := by
  rcases h with h | ⟨t, h⟩ | ⟨t, h⟩
  · exact Or.inl h
  · exact Or.inr ⟨'.', t, h, Or.inl rfl⟩
  · exact Or.inr ⟨'[', t, h, Or.inr rfl⟩

mutual

/-- Under harmless keys, the recorded paths of one traversal are pairwise
distinct. -/
theorem nodup_v :
    ∀ (v : Json) (p : String), goodDoc v = true →
      ((extractPairs v p).map Prod.fst).Nodup
  | .obj kvs, p, h => by
      rw [goodDoc] at h
      rcases Bool.and_eq_true_iff.mp h with ⟨h1, h2⟩
      rw [extractPairs]
      exact nodup_fields kvs p h1 h2
  | .arr xs, p, h => by
      rw [goodDoc] at h
      rw [extractPairs]
      exact nodup_items xs p 0 h
  | .str t, p, _ => by
      by_cases hb : pyNonBlank t <;> simp [extractPairs, hb]
  | .num n, p, _ => by simp [extractPairs]
  | .bool b, p, _ => by simp [extractPairs]
  | .null, p, _ => by simp [extractPairs]

theorem nodup_fields :
    ∀ (kvs : List (String × Json)) (p : String),
      nodupB (kvs.map Prod.fst) = true → goodFields kvs = true →
      ((pairsFields kvs p).map Prod.fst).Nodup
  | [], _, _, _ => by simp [pairsFields]
  | (k, v) :: rest, p, hnd, hgf => by
      rw [List.map_cons] at hnd
      rcases nodupB_cons hnd with ⟨hknotin, hnd2⟩
      rw [goodFields] at hgf
      rcases Bool.and_eq_true_iff.mp hgf with ⟨hkv, hgf2⟩
      rcases Bool.and_eq_true_iff.mp hkv with ⟨hk, hv⟩
      rw [pairsFields, List.map_append, List.nodup_append]
      refine ⟨nodup_v v (joinKey p k) hv, nodup_fields rest p hnd2 hgf2, ?_⟩
      intro q hq1 hq2
      rcases List.mem_map.mp hq1 with ⟨⟨q1, s1⟩, hm1, he1⟩
      rcases List.mem_map.mp hq2 with ⟨⟨q2, s2⟩, hm2, he2⟩
      simp only at he1 he2
      subst he1
      subst he2
      rcases shape_v v (joinKey p k) (joinKey_ne_nil (goodKeyB_spec hk).1) _ _ hm1
        with ⟨e1, hqe1, hext1⟩
      rcases mem_pairsFields hm2 with ⟨k2, v2, hmem2, hp2⟩
      have hgood2 := goodFields_mem hgf2 hmem2
      rcases shape_v v2 (joinKey p k2) (joinKey_ne_nil (goodKeyB_spec hgood2.1).1) _ _ hp2
        with ⟨e2, hqe2, hext2⟩
      rw [joinKey_data] at hqe1 hqe2
      rw [List.append_assoc] at hqe1 hqe2
      have hcat : k.data ++ e1 = k2.data ++ e2 :=
        List.append_cancel_left (hqe1 ▸ hqe2)
      have hkeq : k.data = k2.data :=
        sepCancel k.data k2.data e1 e2 (goodKeyB_spec hk).2 (goodKeyB_spec hgood2.1).2
          (extTail_sep hext1) (extTail_sep hext2) hcat
      have : k = k2 := String.ext hkeq
      exact hknotin (this ▸ List.mem_map.mpr ⟨(k2, v2), hmem2, rfl⟩)

theorem nodup_items :
    ∀ (xs : List Json) (p : String) (i : Nat), goodList xs = true →
      ((pairsItems xs p i).map Prod.fst).Nodup
  | [], _, _, _ => by simp [pairsItems]
  | x :: rest, p, i, hgl => by
      rw [goodList] at hgl
      rcases Bool.and_eq_true_iff.mp hgl with ⟨hx, hrest⟩
      rw [pairsItems, List.map_append, List.nodup_append]
      refine ⟨nodup_v x (joinIndex p i) hx, nodup_items rest p (i + 1) hrest, ?_⟩
      intro q hq1 hq2
      rcases List.mem_map.mp hq1 with ⟨⟨q1, s1⟩, hm1, he1⟩
      rcases List.mem_map.mp hq2 with ⟨⟨q2, s2⟩, hm2, he2⟩
      simp only at he1 he2
      subst he1
      subst he2
      rcases shape_v x (joinIndex p i) (joinIndex_ne_nil p i) _ _ hm1
        with ⟨e1, hqe1, _⟩
      rcases mem_pairsItems hm2 with ⟨n, hn, hp2⟩
      rcases shape_v _ (joinIndex p (i + 1 + n)) (joinIndex_ne_nil p (i + 1 + n)) _ _ hp2
        with ⟨e2, hqe2, _⟩
      rw [joinIndex_data] at hqe1 hqe2
      rw [List.append_assoc] at hqe1 hqe2
      have hcat0 : '[' :: ((Nat.repr i).data ++ [']']) ++ e1
          = '[' :: ((Nat.repr (i + 1 + n)).data ++ [']']) ++ e2 := by
        have := hqe1 ▸ hqe2
        exact List.append_cancel_left this
      rw [List.cons_append, List.cons_append] at hcat0
      injection hcat0 with _ hcat1
      rw [List.append_assoc, List.append_assoc, List.singleton_append,
          List.singleton_append] at hcat1
      have hreq : (Nat.repr i).data = (Nat.repr (i + 1 + n)).data := by
        refine sepCancel (P := fun c => c = ']') _ _ (']' :: e1) (']' :: e2)
          ?_ ?_ (Or.inr ⟨']', e1, rfl, rfl⟩) (Or.inr ⟨']', e2, rfl, rfl⟩) hcat1
        · intro c hc
          exact isDigit_ne_rbracket (repr_data_digits i c hc)
        · intro c hc
          exact isDigit_ne_rbracket (repr_data_digits (i + 1 + n) c hc)
      have := repr_data_injective hreq
      omega

end

/-! ### Per-language loop lemmas -/

theorem translateStep_false_def (backend : String → Option String) (st : LangState)
    (path text : String) :
    translateStep backend false st path text =
      ⟨dinsert st.translations path ((backend text).getD text), st.cache,
        st.callLog ++ [text]⟩ := by
  unfold translateStep
  cases h : backend text with
  | some t => simp [h]
  | none => simp [h]

theorem translateStep_true_hit {backend : String → Option String} {st : LangState}
    {path text c : String} (h : dlookup st.cache text = some c) :
    translateStep backend true st path text =
      ⟨dinsert st.translations path c, st.cache, st.callLog⟩ := by
  unfold translateStep
  simp [h]

theorem translateStep_true_miss_some {backend : String → Option String} {st : LangState}
    {path text t : String} (hc : dlookup st.cache text = none) (hb : backend text = some t) :
    translateStep backend true st path text =
      ⟨dinsert st.translations path t, dinsert st.cache text t, st.callLog ++ [text]⟩ := by
  unfold translateStep
  simp [hc, hb]

theorem translateStep_true_miss_none {backend : String → Option String} {st : LangState}
    {path text : String} (hc : dlookup st.cache text = none) (hb : backend text = none) :
    translateStep backend true st path text =
      ⟨dinsert st.translations path text, st.cache, st.callLog ++ [text]⟩ := by
  unfold translateStep
  simp [hc, hb]

/-- With caching disabled, the loop invokes the backend once per pair, in order:
the call log is exactly the list of source texts. -/
theorem runLanguage_false_log (backend : String → Option String) :
    ∀ (pairs : List (String × String)) (st : LangState),
      (runLanguage backend false pairs st).callLog = st.callLog ++ pairs.map Prod.snd
  | [], st => by simp [runLanguage]
  | (p, t) :: rest, st => by
      rw [runLanguage, runLanguage_false_log backend rest _, translateStep_false_def]
      simp

theorem translateStep_lookup_ne {backend : String → Option String} {u : Bool}
    {st : LangState} {path text q : String} (hq : q ≠ path) :
    dlookup (translateStep backend u st path text).translations q
      = dlookup st.translations q := by
  unfold translateStep
  cases hif : (if u then dlookup st.cache text else none) with
  | some c => simp [dlookup_dinsert_ne _ _ _ _ hq]
  | none =>
      cases hb : backend text with
      | some tr => simp [hb, dlookup_dinsert_ne _ _ _ _ hq]
      | none => simp [hb, dlookup_dinsert_ne _ _ _ _ hq]

theorem runLanguage_lookup_notin (backend : String → Option String) (u : Bool) :
    ∀ (pairs : List (String × String)) (st : LangState) (q : String),
      q ∉ pairs.map Prod.fst →
      dlookup (runLanguage backend u pairs st).translations q
        = dlookup st.translations q
  | [], _, _, _ => rfl
  | (p, t) :: rest, st, q, h => by
      rw [List.map_cons] at h
      have hp : q ≠ p := fun he => h (by simp [he])
      have hrest : q ∉ rest.map Prod.fst := fun hm => h (by simp [hm])
      rw [runLanguage, runLanguage_lookup_notin backend u rest _ q hrest,
          translateStep_lookup_ne hp]

/-- With caching disabled, the translation recorded for a pair is the backend
result when the call succeeds and the original text when the call raises. -/
theorem runLanguage_false_lookup (backend : String → Option String) :
    ∀ (pairs : List (String × String)) (st : LangState) (p t : String),
      (pairs.map Prod.fst).Nodup → (p, t) ∈ pairs →
      dlookup (runLanguage backend false pairs st).translations p
        = some ((backend t).getD t)
  | [], _, p, t, _, hm => by simp at hm
  | (p0, t0) :: rest, st, p, t, hnd, hm => by
      rw [List.map_cons, List.nodup_cons] at hnd
      rcases List.mem_cons.mp hm with hm | hm
      · injection hm with h1 h2
        subst h1; subst h2
        rw [runLanguage, runLanguage_lookup_notin backend false rest _ p hnd.1,
            translateStep_false_def]
        exact dlookup_dinsert_self _ _ _
      · rw [runLanguage]
        exact runLanguage_false_lookup backend rest _ p t hnd.2 hm

/-- With caching enabled, a string on which the backend succeeds is sent to the
backend at most once more than what the incoming call log already contains:
after the first successful call it is served from the cache. -/
theorem runLanguage_true_count (backend : String → Option String) (s t : String)
    (hb : backend s = some t) :
    ∀ (pairs : List (String × String)) (st : LangState),
      (runLanguage backend true pairs st).callLog.count s ≤
        st.callLog.count s + (if (dlookup st.cache s).isSome then 0 else 1)
  | [], st => by
      rw [runLanguage]
      by_cases h : (dlookup st.cache s).isSome <;> simp [h]
  | (p0, x) :: rest, st => by
      rw [runLanguage]
      cases hc : dlookup st.cache x with
      | some c =>
          rw [translateStep_true_hit hc]
          exact runLanguage_true_count backend s t hb rest _
      | none =>
          cases hbx : backend x with
          | some tr =>
              rw [translateStep_true_miss_some hc hbx]
              by_cases hxs : x = s
              · subst hxs
                have h1 := runLanguage_true_count backend x t hb rest
                  ⟨dinsert st.translations p0 tr, dinsert st.cache x tr, st.callLog ++ [x]⟩
                simp only [dlookup_dinsert_self, Option.isSome_some, if_true,
                  List.count_append] at h1
                rw [hc]
                simp only [Option.isSome_none, Bool.false_eq_true, if_false]
                have h2 : (List.count x [x]) = 1 := by simp
                omega
              · have h1 := runLanguage_true_count backend s t hb rest
                  ⟨dinsert st.translations p0 tr, dinsert st.cache x tr, st.callLog ++ [x]⟩
                rw [dlookup_dinsert_ne _ _ _ _ (fun he => hxs he.symm)] at h1
                have h2 : (st.callLog ++ [x]).count s = st.callLog.count s := by
                  simp [List.count_append, List.count_cons, hxs]
                rw [h2] at h1
                exact h1
          | none =>
              have hxs : ¬(x = s) := fun he => by rw [he, hb] at hbx; cases hbx
              rw [translateStep_true_miss_none hc hbx]
              have h1 := runLanguage_true_count backend s t hb rest
                ⟨dinsert st.translations p0 x, st.cache, st.callLog ++ [x]⟩
              have h2 : (st.callLog ++ [x]).count s = st.callLog.count s := by
                simp [List.count_append, List.count_cons, hxs]
              rw [h2] at h1
              exact h1

/-- When every cache entry agrees with what the backend would answer, running
with the cache produces the same translations dict as running without it. -/
theorem runLanguage_cache_agree (backend : String → Option String) :
    ∀ (pairs : List (String × String)) (trans c : List (String × String))
      (log1 log2 : List String),
      (∀ x tr, dlookup c x = some tr → backend x = some tr) →
      (runLanguage backend true pairs ⟨trans, c, log1⟩).translations
        = (runLanguage backend false pairs ⟨trans, [], log2⟩).translations
  | [], _, _, _, _, _ => rfl
  | (p0, x) :: rest, tra, c, log1, log2, hinv => by
      rw [runLanguage, runLanguage, translateStep_false_def]
      cases hc : dlookup c x with
      | some tr =>
          have hbx : backend x = some tr := hinv x tr hc
          rw [translateStep_true_hit hc]
          simp only [hbx, Option.getD_some]
          exact runLanguage_cache_agree backend rest _ c _ _ hinv
      | none =>
          cases hbx : backend x with
          | some tr =>
              rw [translateStep_true_miss_some hc hbx]
              simp only [hbx, Option.getD_some]
              refine runLanguage_cache_agree backend rest _ (dinsert c x tr) _ _ ?_
              intro y tr2 hy
              by_cases hyx : y = x
              · subst hyx
                rw [dlookup_dinsert_self] at hy
                injection hy with hy2
                rw [hy2] at hbx
                exact hbx
              · exact hinv y tr2 (by rw [dlookup_dinsert_ne _ _ _ _ hyx] at hy; exact hy)
          | none =>
              rw [translateStep_true_miss_none hc hbx]
              simp only [hbx, Option.getD_none]
              exact runLanguage_cache_agree backend rest _ c _ _ hinv

/-- `generate_i18n` returns `True` whenever the input document loads and the
output directory is writable (the only failure modes of the outer `try`). -/
theorem generateI18n_success_always (backend : String → String → Option String)
    (doc : Json) (langs : List String) (u : Bool)
    (reads : String → Option (List (String × String))) :
    (generateI18n backend doc langs u reads).success = true := by
  unfold generateI18n
  by_cases h : extractTranslatableValues doc "" = [] <;> simp [h]

/-- Unfolding of the outputs of `generate_i18n` when there is something to
translate. -/
theorem generateI18n_outputs_unfold (backend : String → String → Option String)
    (doc : Json) (langs : List String) (u : Bool)
    (reads : String → Option (List (String × String)))
    (h : ¬(extractTranslatableValues doc "" = [])) :
    (generateI18n backend doc langs u reads).outputs =
      langs.map (fun lang =>
        (lang, buildTranslatedStructure doc
          (runLanguage (fun t => backend t lang) u (extractTranslatableValues doc "")
            ⟨[], if u then loadTranslationCache (reads lang) else [], []⟩).translations
          "")) := by
  unfold generateI18n
  simp [h, List.map_map]

/-- A cache-file read failure degrades to the empty cache and yields exactly
the outputs of a run with caching disabled. -/
theorem generateI18n_outputs_cache_fail (backend : String → String → Option String)
    (doc : Json) (langs : List String)
    (reads : String → Option (List (String × String))) :
    (generateI18n backend doc langs true (fun _ => none)).outputs
      = (generateI18n backend doc langs false reads).outputs := by
  by_cases h : extractTranslatableValues doc "" = []
  · unfold generateI18n
    simp [h]
  · rw [generateI18n_outputs_unfold backend doc langs true (fun _ => none) h,
        generateI18n_outputs_unfold backend doc langs false reads h]
    apply List.map_congr_left
    intro lang _
    have hcache : (if true then loadTranslationCache ((fun _ =>
        (none : Option (List (String × String)))) lang) else []) = ([] : List (String × String)) := rfl
    rw [hcache]
    have hcache2 : (if false = true then loadTranslationCache (reads lang) else [])
        = ([] : List (String × String)) := rfl
    rw [hcache2]
    have := runLanguage_cache_agree (fun t => backend t lang)
      (extractTranslatableValues doc "") [] [] [] []
      (by intro x tr hx; simp [dlookup] at hx)
    rw [this]

/-! ### Claim theorems -/

/-- C1 (counterexample): the flatten/rebuild round-trip fails on a document
whose top-level key `"a.b"` renders to the same path as the nested chain
`"a"`/`"b"`: the flatten map sends `"a.b"` to the later leaf `"y"`, and rebuild
then replaces the leaf `"x"` by `"y"`. -/
theorem roundtrip_fails_on_collidingDoc :
    ¬(buildTranslatedStructure collidingDoc (extractTranslatableValues collidingDoc "") ""
        = collidingDoc) := by decide

/-- C1 (amended): `rebuild(D, {}) = D` holds unconditionally, and the
flatten/rebuild round-trip with the extracted map reproduces `D` exactly
whenever the paths of the string leaves of `D` are pairwise distinct (which a
key containing `.` or `[` can defeat, as in `collidingDoc`). -/
theorem rebuild_empty_and_roundtrip :
    (∀ D : Json, buildTranslatedStructure D [] "" = D) ∧
    (∀ D : Json, ((strLeafPairs D "").map Prod.fst).Nodup →
      buildTranslatedStructure D (extractTranslatableValues D "") "" = D) := by
  constructor
  · intro D
    exact build_empty D ""
  · intro D hnd
    apply build_id
    intro q s hm
    have hfilter := pairs_eq_filter D ""
    have hsub : ((extractPairs D "").map Prod.fst).Sublist
        ((strLeafPairs D "").map Prod.fst) := by
      rw [hfilter]
      exact (List.filter_sublist _).map Prod.fst
    have hpnd : ((extractPairs D "").map Prod.fst).Nodup := hnd.sublist hsub
    have heq := extract_eq_pairs D "" hpnd
    by_cases hb : pyNonBlank s
    · rw [if_pos hb, heq]
      apply dlookup_of_mem_nodup hpnd
      rw [hfilter]
      exact List.mem_filter.mpr ⟨hm, hb⟩
    · rw [if_neg hb, heq]
      apply (dlookup_eq_none_iff _ q).mpr
      intro hqmem
      rcases List.mem_map.mp hqmem with ⟨⟨q2, s2⟩, hm2, he2⟩
      simp only at he2
      subst he2
      rw [hfilter] at hm2
      have hm2m := List.mem_filter.mp hm2
      have h1 := dlookup_of_mem_nodup hnd hm
      have h2 := dlookup_of_mem_nodup hnd hm2m.1
      rw [h1] at h2
      injection h2 with h3
      rw [h3] at hb
      exact hb hm2m.2

/-- C1 (witness): the round-trip at the spec's scenario document, whose string
leaf paths are pairwise distinct. -/
theorem rebuild_empty_and_roundtrip_witness :
    buildTranslatedStructure exampleDoc (extractTranslatableValues exampleDoc "") ""
      = exampleDoc :=
  rebuild_empty_and_roundtrip.2 exampleDoc (by decide)

/-- C2: rebuilding with an arbitrary translation map (malformed or unrelated
keys included) preserves the whole structure: after erasing string leaf values
both trees agree, so mapping keys, their order, sequence lengths and every
non-string leaf are unchanged. -/
theorem rebuild_shape_preserving :
    ∀ (D : Json) (M : List (String × String)),
      stripStrings (buildTranslatedStructure D M "") = stripStrings D :=
  fun D M => strip_build D M ""

/-- C3 (counterexample): two distinct string leaves of `collidingDoc` are
recorded under the same path `"a.b"`, so the traversal's recorded paths are not
pairwise distinct and the second recording overwrites the first. -/
theorem flatten_paths_collide :
    ¬(((extractPairs collidingDoc "").map Prod.fst).Nodup) ∧
    ¬(extractTranslatableValues collidingDoc "" = extractPairs collidingDoc "") := by
  decide

/-- C3 (amended): for documents whose mapping keys are non-empty and free of
`.` and `[` (as `goodDoc` states), the recorded paths of one traversal are
pairwise distinct, and consequently no entry is overwritten during the merge:
the dict equals the recording sequence. -/
theorem flatten_paths_unique :
    ∀ D : Json, goodDoc D = true →
      ((extractPairs D "").map Prod.fst).Nodup ∧
      extractTranslatableValues D "" = extractPairs D "" := by
  intro D h
  refine ⟨nodup_v D "" h, extract_eq_pairs D "" (nodup_v D "" h)⟩

/-- C3 (witness): path uniqueness at the spec's scenario document. -/
theorem flatten_paths_unique_witness :
    ((extractPairs exampleDoc "").map Prod.fst).Nodup ∧
    extractTranslatableValues exampleDoc "" = extractPairs exampleDoc "" :=
  flatten_paths_unique exampleDoc (by decide)

/-- C4 (counterexample): `collidingDoc` has the non-blank string leaf `"x"` at
path `"a.b"`, yet the flatten result does not map `"a.b"` to `"x"` — the claim's
"an entry exactly for those string leaves ... keyed by the path" fails. -/
theorem flatten_misses_colliding_leaf :
    ("a.b", "x") ∈ strLeafPairs collidingDoc "" ∧
    pyNonBlank "x" = true ∧
    ¬(dlookup (extractTranslatableValues collidingDoc "") "a.b" = some "x") := by
  decide

/-- C4 (amended): every entry of the flatten result is a non-blank string leaf
at its recorded path (unconditionally); when the string-leaf paths are pairwise
distinct the correspondence is exact; and the spec's scenario document flattens
to exactly the stated two entries. -/
theorem flatten_characterization :
    (∀ (D : Json) (q s : String),
      dlookup (extractTranslatableValues D "") q = some s →
      (q, s) ∈ strLeafPairs D "" ∧ pyNonBlank s = true) ∧
    (∀ D : Json, ((strLeafPairs D "").map Prod.fst).Nodup →
      ∀ q s, ((q, s) ∈ strLeafPairs D "" ∧ pyNonBlank s = true) ↔
        dlookup (extractTranslatableValues D "") q = some s) ∧
    (extractTranslatableValues exampleDoc ""
      = [("title", "Hello World"), ("tags[0]", "a")]) := by
  have hsound : ∀ (D : Json) (q s : String),
      dlookup (extractTranslatableValues D "") q = some s →
      (q, s) ∈ strLeafPairs D "" ∧ pyNonBlank s = true := by
    intro D q s hl
    have hp := mem_extract_sub D "" q s (mem_of_dlookup_eq_some hl)
    rw [pairs_eq_filter D ""] at hp
    exact ⟨(List.mem_filter.mp hp).1, (List.mem_filter.mp hp).2⟩
  refine ⟨hsound, ?_, by decide⟩
  intro D hnd q s
  constructor
  · rintro ⟨hm, hb⟩
    have hfilter := pairs_eq_filter D ""
    have hsub : ((extractPairs D "").map Prod.fst).Sublist
        ((strLeafPairs D "").map Prod.fst) := by
      rw [hfilter]
      exact (List.filter_sublist _).map Prod.fst
    have hpnd : ((extractPairs D "").map Prod.fst).Nodup := hnd.sublist hsub
    rw [extract_eq_pairs D "" hpnd]
    apply dlookup_of_mem_nodup hpnd
    rw [hfilter]
    exact List.mem_filter.mpr ⟨hm, hb⟩
  · exact hsound D q s

/-- C4 (witness): the exact correspondence applied at the scenario document. -/
theorem flatten_characterization_witness :
    dlookup (extractTranslatableValues exampleDoc "") "title" = some "Hello World" :=
  (flatten_characterization.2.1 exampleDoc (by decide) "title" "Hello World").mp (by decide)

/-- C5: per leaf, a raised backend call makes the loop record the original
source text and continue; a successful call records the translation; and
`generate_i18n` still returns `True` (the per-leaf `except` keeps the failure
away from the outer `try`). -/
theorem backend_failure_keeps_original :
    (∀ (backend : String → Option String) (pairs : List (String × String))
        (st0 : LangState) (p t : String),
        (pairs.map Prod.fst).Nodup → (p, t) ∈ pairs → backend t = none →
        dlookup (runLanguage backend false pairs st0).translations p = some t) ∧
    (∀ (backend : String → Option String) (pairs : List (String × String))
        (st0 : LangState) (p t tr : String),
        (pairs.map Prod.fst).Nodup → (p, t) ∈ pairs → backend t = some tr →
        dlookup (runLanguage backend false pairs st0).translations p = some tr) ∧
    (∀ (backend : String → String → Option String) (doc : Json) (langs : List String)
        (reads : String → Option (List (String × String))),
        (generateI18n backend doc langs false reads).success = true) := by
  refine ⟨?_, ?_, ?_⟩
  · intro backend pairs st0 p t hnd hm hb
    have := runLanguage_false_lookup backend pairs st0 p t hnd hm
    rw [hb] at this
    exact this
  · intro backend pairs st0 p t tr hnd hm hb
    have := runLanguage_false_lookup backend pairs st0 p t hnd hm
    rw [hb] at this
    exact this
  · intro backend doc langs reads
    exact generateI18n_success_always backend doc langs false reads

/-- C5 (witness): on the two-leaf document, with a backend raising on
`"hello"` and succeeding on `"world"`, the failed leaf keeps its original text,
the other leaf is translated, and the run reports success. -/
theorem backend_failure_keeps_original_witness :
    dlookup (runLanguage failingBackend false (extractTranslatableValues twoLeafDoc "")
        ⟨[], [], []⟩).translations "a" = some "hello" ∧
    dlookup (runLanguage failingBackend false (extractTranslatableValues twoLeafDoc "")
        ⟨[], [], []⟩).translations "b" = some "world!" ∧
    (generateI18n (fun t _ => failingBackend t) twoLeafDoc ["zh"] false
        (fun _ => none)).success = true :=
  ⟨backend_failure_keeps_original.1 failingBackend (extractTranslatableValues twoLeafDoc "")
      ⟨[], [], []⟩ "a" "hello" (by decide) (by decide) (by decide),
   backend_failure_keeps_original.2.1 failingBackend (extractTranslatableValues twoLeafDoc "")
      ⟨[], [], []⟩ "b" "world" "world!" (by decide) (by decide) (by decide),
   backend_failure_keeps_original.2.2 (fun t _ => failingBackend t) twoLeafDoc ["zh"]
      (fun _ => none)⟩

/-- C6 (counterexample): with caching enabled, a string whose backend calls
raise is retried at every occurrence — here the backend is invoked twice for
the single string `"s"` of `dupStringDoc` — because failures are not cached. -/
theorem cache_retries_failed_translation :
    ¬((runLanguage alwaysFailBackend true (extractTranslatableValues dupStringDoc "")
        ⟨[], [], []⟩).callLog.count "s" ≤ 1) := by decide

/-- C6 (amended): with caching enabled, a string on which the backend succeeds
is sent to the backend at most once within one (document, language) pass: the
first successful translation is cached and later occurrences hit the cache. -/
theorem cache_dedupes_successful_translations :
    ∀ (backend : String → Option String) (s t : String), backend s = some t →
      ∀ (pairs : List (String × String)) (c0 : List (String × String)),
        (runLanguage backend true pairs ⟨[], c0, []⟩).callLog.count s ≤ 1 := by
  intro backend s t hb pairs c0
  have := runLanguage_true_count backend s t hb pairs ⟨[], c0, []⟩
  simp only [List.count_nil] at this
  by_cases h : (dlookup c0 s).isSome
  · rw [if_pos h] at this
    omega
  · rw [if_neg h] at this
    omega

/-- C6 (witness): the dedup bound at the duplicate-string document with an
always-successful backend. -/
theorem cache_dedupes_witness :
    (runLanguage okBackend true (extractTranslatableValues dupStringDoc "")
        ⟨[], [], []⟩).callLog.count "s" ≤ 1 :=
  cache_dedupes_successful_translations okBackend "s" "s-zh" (by decide)
    (extractTranslatableValues dupStringDoc "") []

/-- C7 (counterexample): translating `dupStringDoc` (one distinct string at two
paths) into two languages with caching enabled and empty caches makes two
backend calls, not one: the cache is per-language, so the string is translated
once per language. -/
theorem two_languages_two_calls :
    ¬((generateI18n twoLangBackend dupStringDoc ["zh", "es"] true
        (fun _ => none)).totalCalls = 1) := by decide

/-- C7 (amended): in the claim's scenario the total number of backend
invocations is the number of languages times the number of distinct strings —
2 × 1 = 2 — not one, not the per-language occurrence count, and not
languages × leaves (4). -/
theorem total_calls_languages_times_distinct :
    (generateI18n twoLangBackend dupStringDoc ["zh", "es"] true
        (fun _ => none)).totalCalls = 2 := by decide

/-- C8: with caching enabled, a cache-file read failure degrades to the empty
cache (`_load_translation_cache` swallows the exception), the run still
succeeds, and the outputs are exactly those of a run with no cache at all;
a cache-file write failure is likewise swallowed and cannot influence the
returned data. -/
theorem cache_io_failure_harmless :
    ∀ (backend : String → String → Option String) (doc : Json) (langs : List String)
      (reads : String → Option (List (String × String))),
      loadTranslationCache none = [] ∧
      (generateI18n backend doc langs true (fun _ => none)).success = true ∧
      (generateI18n backend doc langs true (fun _ => none)).outputs
        = (generateI18n backend doc langs false reads).outputs := by
  intro backend doc langs reads
  exact ⟨rfl, generateI18n_success_always backend doc langs true (fun _ => none),
    generateI18n_outputs_cache_fail backend doc langs reads⟩

/-- C9: evaluation of `get_available_providers` on the config freshly written
by `init`: it reports qwen, claude and gemini as available, because it compares
`api_key` against `f"your_{provider}_api_key_here"` while `init` writes
`your_dashscope_api_key_here`, `your_anthropic_api_key_here` and
`your_google_api_key_here` (only openai's placeholder matches the pattern). -/
theorem init_config_reports_three_providers :
    getAvailableProviders generateDefaultConfig = ["qwen", "claude", "gemini"] := by
  decide

/-- C10: with caching disabled the loop never deduplicates: the call log of one
(document, language) pass is exactly the list of source texts of the
translatable entries, so a string occurring in n entries is sent to the backend
exactly n times. -/
theorem no_cache_no_dedup :
    (∀ (backend : String → Option String) (D : Json) (c0 : List (String × String)),
      (runLanguage backend false (extractTranslatableValues D "") ⟨[], c0, []⟩).callLog
        = (extractTranslatableValues D "").map Prod.snd) ∧
    (∀ (backend : String → Option String) (D : Json) (c0 : List (String × String))
        (s : String),
      (runLanguage backend false (extractTranslatableValues D "") ⟨[], c0, []⟩).callLog.count s
        = ((extractTranslatableValues D "").map Prod.snd).count s) := by
  have h1 : ∀ (backend : String → Option String) (D : Json) (c0 : List (String × String)),
      (runLanguage backend false (extractTranslatableValues D "") ⟨[], c0, []⟩).callLog
        = (extractTranslatableValues D "").map Prod.snd := by
    intro backend D c0
    have := runLanguage_false_log backend (extractTranslatableValues D "") ⟨[], c0, []⟩
    simpa using this
  exact ⟨h1, fun backend D c0 s => by rw [h1 backend D c0]⟩
